import Mathlib

/-!
Shallow embedding of `swm::Matrix<T, Cols, Rows>` from `src/Matrix.hpp`.

The element type `T` is instantiated at `Int` (exact integer arithmetic), so the
single-type operators model the homogeneous instantiations of the C++ templates.
`std::vector<T> data` is modelled as `List Int`; `Cols`/`Rows` template
parameters are the `cols`/`rows` indices of the `Matrix` type.  The imperative
loops of `identity`, `transpose`, `slice` and `operator*` are embedded as left
folds over `List.range`, one write (`List.set`) per loop iteration, and
`std::transform` writing into a freshly default-constructed matrix is embedded
by `overwriteFrom`.  Reads through `operator()` are modelled with `List.getD`
(in-bounds reads agree with the vector; out-of-bounds access is UB in the C++).
-/

namespace swm

/-- Models `std::vector<T>::resize(n)` for `T = Int`: truncate to `n` elements,
or extend with value-initialized (zero) elements. -/
def vecResize (l : List Int) (n : Nat) : List Int :=
  l.take n ++ List.replicate (n - l.length) 0

/-- Models `std::transform(src.begin(), src.end(), dst.begin(), ...)` output:
the first `src.length` slots of `dst` are overwritten by `src` (the C++ is UB
when `src` is longer than `dst`; the model then keeps `dst`'s length). -/
def overwriteFrom (dst src : List Int) : List Int :=
  src.take dst.length ++ dst.drop src.length

/-- `swm::Matrix<T, Cols, Rows>` with its single field `std::vector<T> data`.
The length of `data` is *not* baked into the type: it is whatever the member
functions produce, so storage-length claims can be settled against the code. -/
structure Matrix (cols rows : Nat) where
  data : List Int
deriving DecidableEq

/-- Default constructor `Matrix() : data(Cols * Rows, 0)`. -/
def Matrix.mkDefault (cols rows : Nat) : Matrix cols rows :=
  ⟨List.replicate (cols * rows) 0⟩

/-- Initializer-list constructor
`Matrix(std::initializer_list<T> il) : data(il) { data.resize(Cols * Rows); }`. -/
def Matrix.ofList (cols rows : Nat) (il : List Int) : Matrix cols rows :=
  ⟨vecResize il (cols * rows)⟩

/-- Element read through `operator()(col, row)`: `data[col + row * Cols]`. -/
def Matrix.el {cols rows : Nat} (m : Matrix cols rows) (col row : Nat) : Int :=
  m.data.getD (col + row * cols) 0

/-- Element write through the mutable `operator()(col, row)`:
`data[col + row * Cols] = v`. -/
def Matrix.set {cols rows : Nat} (m : Matrix cols rows) (col row : Nat) (v : Int) :
    Matrix cols rows :=
  ⟨m.data.set (col + row * cols) v⟩

/-- The `data.length == Cols * Rows` storage invariant claimed by the spec. -/
abbrev Matrix.WF {cols rows : Nat} (m : Matrix cols rows) : Prop :=
  m.data.length = cols * rows

/-- `Matrix::identity<Size>()`: default-construct, then `id(i, i) = 1` for
`i` in `[0, Size)`. -/
def Matrix.identity (size : Nat) : Matrix size size :=
  (List.range size).foldl (fun m i => m.set i i 1) (Matrix.mkDefault size size)

/-- `Matrix::transpose(m)`: default-construct a `Rows x Cols` matrix `t`, then
`t(i, j) = m(j, i)` for `i` in `[0, Rows)`, `j` in `[0, Cols)`. -/
def Matrix.transpose {cols rows : Nat} (m : Matrix cols rows) : Matrix rows cols :=
  (List.range rows).foldl (fun t i =>
    (List.range cols).foldl (fun t j => t.set i j (m.el j i)) t)
    (Matrix.mkDefault rows cols)

/-- The inner copy loop of `Matrix::slice` in the `Cols != NewCols` case:
`len` iterator steps writing `src[srcOff + j]` to `d[dstOff + j]`. -/
def copyRow (src d : List Int) (srcOff dstOff len : Nat) : List Int :=
  (List.range len).foldl (fun d j => d.set (dstOff + j) (src.getD (srcOff + j) 0)) d

/-- `Matrix::slice<NewCols, NewRows>()`: default-construct the result, then
either copy row-by-row (`Cols != NewCols`) or, in the `Cols == NewCols` case,
`sliced.data.insert(sliced.data.begin(), thisBegin, thisBegin + lesserRows*Cols)`,
which *prepends* the copied elements to the already-sized zero vector. -/
def Matrix.slice {cols rows : Nat} (m : Matrix cols rows) (newCols newRows : Nat) :
    Matrix newCols newRows :=
  let sliced := Matrix.mkDefault newCols newRows
  let lesserRows := min rows newRows
  if cols ≠ newCols then
    let lesserCols := min cols newCols
    ⟨(List.range lesserRows).foldl
      (fun d i => copyRow m.data d (i * cols) (i * newCols) lesserCols) sliced.data⟩
  else
    ⟨m.data.take (lesserRows * cols) ++ sliced.data⟩

/-- Element-type conversion `operator Matrix<U, Cols, Rows>()`: default-construct
and `std::transform` with `static_cast`; at `U = T = Int` the cast is the
identity function. -/
def Matrix.convert {cols rows : Nat} (m : Matrix cols rows) : Matrix cols rows :=
  ⟨overwriteFrom (Matrix.mkDefault cols rows).data (m.data.map (fun x => x))⟩

/-- `operator+`: `std::transform` of the two data vectors, written pairwise into
a default-constructed result. -/
def Matrix.add {cols rows : Nat} (m other : Matrix cols rows) : Matrix cols rows :=
  ⟨overwriteFrom (Matrix.mkDefault cols rows).data
    (List.zipWith (fun lhs rhs => lhs + rhs) m.data other.data)⟩

/-- `operator-`: `std::transform` of the two data vectors, written pairwise into
a default-constructed result. -/
def Matrix.sub {cols rows : Nat} (m other : Matrix cols rows) : Matrix cols rows :=
  ⟨overwriteFrom (Matrix.mkDefault cols rows).data
    (List.zipWith (fun lhs rhs => lhs - rhs) m.data other.data)⟩

/-- `operator*` (matrix product): triple loop
`newMatrix(j, i) += (*this)(k, i) * other(j, k)` over `i` in `[0, Rows)`,
`j` in `[0, OtherCols)`, `k` in `[0, Cols)`, on a default-constructed result. -/
def Matrix.mul {cols rows ocols : Nat} (m : Matrix cols rows) (other : Matrix ocols cols) :
    Matrix ocols rows :=
  (List.range rows).foldl (fun nm i =>
    (List.range ocols).foldl (fun nm j =>
      (List.range cols).foldl (fun nm k =>
        nm.set j i (nm.el j i + m.el k i * other.el j k)) nm) nm)
    (Matrix.mkDefault ocols rows)

/-- Free `operator*(matrix, scalar)`: `std::transform` multiplying every element
by the scalar, written into a default-constructed result. -/
def Matrix.scalarMulRight {cols rows : Nat} (m : Matrix cols rows) (s : Int) :
    Matrix cols rows :=
  ⟨overwriteFrom (Matrix.mkDefault cols rows).data (m.data.map (fun x => x * s))⟩

/-- Free `operator*(scalar, matrix)`: `return matrix * scalar;`. -/
def Matrix.scalarMulLeft {cols rows : Nat} (s : Int) (m : Matrix cols rows) :
    Matrix cols rows :=
  m.scalarMulRight s

/-! Basic `List.getD` / `List.set` helper lemmas. -/

theorem getD_set_self (l : List Int) (i : Nat) (v : Int) (h : i < l.length) :
    (l.set i v).getD i 0 = v := by
  rw [List.getD_eq_getElem?_getD, List.getElem?_set_self (by omega), Option.getD_some]

theorem getD_set_of_ne (l : List Int) {i j : Nat} (v : Int) (h : i ≠ j) :
    (l.set i v).getD j 0 = l.getD j 0 := by
  rw [List.getD_eq_getElem?_getD, List.getElem?_set_ne h, ← List.getD_eq_getElem?_getD]

theorem getD_replicate_zero (n i : Nat) : (List.replicate n (0 : Int)).getD i 0 = 0 := by
  rw [List.getD_eq_getElem?_getD]
  rcases lt_or_ge i n with h | h
  · rw [List.getElem?_replicate_of_lt h]; rfl
  · rw [List.getElem?_eq_none (by simpa using h)]; rfl

theorem getD_append_lt (a b : List Int) (n : Nat) (h : n < a.length) :
    (a ++ b).getD n 0 = a.getD n 0 := by
  rw [List.getD_eq_getElem?_getD, List.getElem?_append, if_pos h, ← List.getD_eq_getElem?_getD]

theorem getD_append_ge (a b : List Int) (n : Nat) (h : a.length ≤ n) :
    (a ++ b).getD n 0 = b.getD (n - a.length) 0 := by
  rw [List.getD_eq_getElem?_getD, List.getElem?_append, if_neg (by omega),
    ← List.getD_eq_getElem?_getD]

theorem getD_take (l : List Int) (n i : Nat) (h : i < n) :
    (l.take n).getD i 0 = l.getD i 0 := by
  rw [List.getD_eq_getElem?_getD, List.getElem?_take, if_pos h, ← List.getD_eq_getElem?_getD]

theorem getD_map (f : Int → Int) (l : List Int) (i : Nat) (h : i < l.length) :
    (l.map f).getD i 0 = f (l.getD i 0) := by
  rw [List.getD_eq_getElem?_getD, List.getElem?_map,
    List.getElem?_eq_getElem h, List.getD_eq_getElem?_getD, List.getElem?_eq_getElem h]
  rfl

theorem getD_zipWith (f : Int → Int → Int) (a b : List Int) (i : Nat)
    (ha : i < a.length) (hb : i < b.length) :
    (List.zipWith f a b).getD i 0 = f (a.getD i 0) (b.getD i 0) := by
  rw [List.getD_eq_getElem?_getD, List.getElem?_zipWith,
    List.getElem?_eq_getElem ha, List.getElem?_eq_getElem hb,
    List.getD_eq_getElem?_getD, List.getElem?_eq_getElem ha,
    List.getD_eq_getElem?_getD, List.getElem?_eq_getElem hb]
  rfl

/-- Row-major linear indexing `(c, r) ↦ c + r * n` is injective for `c < n`. -/
theorem linIdx_inj {n c c' r r' : Nat} (hc : c < n) (hc' : c' < n)
    (h : c + r * n = c' + r' * n) : c = c' ∧ r = r' := by
  have h1 : (c + r * n) % n = c := by rw [Nat.add_mul_mod_self_right, Nat.mod_eq_of_lt hc]
  have h2 : (c' + r' * n) % n = c' := by rw [Nat.add_mul_mod_self_right, Nat.mod_eq_of_lt hc']
  rw [h] at h1
  have hcc : c = c' := by omega
  subst hcc
  refine ⟨rfl, ?_⟩
  have hm : r * n = r' * n := by omega
  exact Nat.eq_of_mul_eq_mul_right (by omega) hm

/-! Helper lemmas about the constructors and elementwise operators. -/

theorem mkDefault_WF (cols rows : Nat) : (Matrix.mkDefault cols rows).WF :=
  List.length_replicate _ _

theorem mkDefault_el (cols rows c r : Nat) : (Matrix.mkDefault cols rows).el c r = 0 :=
  getD_replicate_zero _ _

theorem linIdx_lt {cols rows c r : Nat} (hc : c < cols) (hr : r < rows) :
    c + r * cols < cols * rows := by
  calc c + r * cols < cols + r * cols := by omega
  _ = (r + 1) * cols := by ring
  _ ≤ rows * cols := Nat.mul_le_mul_right _ (by omega)
  _ = cols * rows := Nat.mul_comm _ _

theorem ofList_el (cols rows : Nat) (l : List Int) (c r : Nat)
    (hc : c < cols) (hr : r < rows) (hl : l.length ≤ cols * rows) :
    (Matrix.ofList cols rows l).el c r = l.getD (c + r * cols) 0 := by
  have hidx : c + r * cols < cols * rows := linIdx_lt hc hr
  show (vecResize l (cols * rows)).getD (c + r * cols) 0 = _
  rw [vecResize, List.take_of_length_le hl]
  rcases lt_or_ge (c + r * cols) l.length with h | h
  · rw [getD_append_lt _ _ _ h]
  · rw [getD_append_ge _ _ _ h, getD_replicate_zero, List.getD_eq_default _ _ h]

theorem ofList_WF (cols rows : Nat) (l : List Int) : (Matrix.ofList cols rows l).WF := by
  show (vecResize l (cols * rows)).length = cols * rows
  rw [vecResize, List.length_append, List.length_take, List.length_replicate]
  omega

theorem scalarMulRight_data {cols rows : Nat} (m : Matrix cols rows) (s : Int) (hm : m.WF) :
    (m.scalarMulRight s).data = m.data.map (fun x => x * s) := by
  show overwriteFrom (List.replicate (cols * rows) 0) (m.data.map (fun x => x * s)) = _
  rw [overwriteFrom, List.take_of_length_le (by simp [hm]),
    List.drop_eq_nil_of_le (by simp [hm]), List.append_nil]

theorem add_data {cols rows : Nat} (m other : Matrix cols rows) (hm : m.WF) (ho : other.WF) :
    (m.add other).data = List.zipWith (fun lhs rhs => lhs + rhs) m.data other.data := by
  show overwriteFrom (List.replicate (cols * rows) 0)
      (List.zipWith (fun lhs rhs => lhs + rhs) m.data other.data) = _
  rw [overwriteFrom, List.take_of_length_le (by simp [List.length_zipWith, hm, ho]),
    List.drop_eq_nil_of_le (by simp [List.length_zipWith, hm, ho]), List.append_nil]

theorem sub_data {cols rows : Nat} (m other : Matrix cols rows) (hm : m.WF) (ho : other.WF) :
    (m.sub other).data = List.zipWith (fun lhs rhs => lhs - rhs) m.data other.data := by
  show overwriteFrom (List.replicate (cols * rows) 0)
      (List.zipWith (fun lhs rhs => lhs - rhs) m.data other.data) = _
  rw [overwriteFrom, List.take_of_length_le (by simp [List.length_zipWith, hm, ho]),
    List.drop_eq_nil_of_le (by simp [List.length_zipWith, hm, ho]), List.append_nil]

/-! Machinery for the loop-as-fold embeddings: length preservation and
element characterizations. -/

theorem el_set_self {cols rows : Nat} (m : Matrix cols rows) (c r : Nat) (v : Int)
    (h : c + r * cols < m.data.length) : (m.set c r v).el c r = v :=
  getD_set_self _ _ _ h

theorem el_set_of_ne {cols rows : Nat} (m : Matrix cols rows) {c r c' r' : Nat} (v : Int)
    (h : c + r * cols ≠ c' + r' * cols) : (m.set c r v).el c' r' = m.el c' r' :=
  getD_set_of_ne _ _ h

theorem set_data_length {cols rows : Nat} (m : Matrix cols rows) (c r : Nat) (v : Int) :
    (m.set c r v).data.length = m.data.length :=
  List.length_set _ _ _

theorem linIdx_ne {n c c' r r' : Nat} (hc : c < n) (hc' : c' < n)
    (h : ¬(c = c' ∧ r = r')) : c + r * n ≠ c' + r' * n :=
  fun heq => h (linIdx_inj hc hc' heq)

theorem data_length_foldl {cols rows : Nat} (step : Matrix cols rows → Nat → Matrix cols rows)
    (hstep : ∀ m a, (step m a).data.length = m.data.length)
    (l : List Nat) : ∀ m : Matrix cols rows, (l.foldl step m).data.length = m.data.length := by
  induction l with
  | nil => intro m; rfl
  | cons a l ih => intro m; rw [List.foldl_cons, ih, hstep]

theorem length_foldl_set (f : Nat → Nat) (g : Nat → Int) (l : List Nat) :
    ∀ d : List Int, (l.foldl (fun d j => d.set (f j) (g j)) d).length = d.length := by
  induction l with
  | nil => intro d; rfl
  | cons a l ih => intro d; rw [List.foldl_cons, ih, List.length_set]

/-- Element characterization of the `identity` write loop after `n` of the
`Size` iterations. -/
theorem identity_el_aux (size : Nat) :
    ∀ n : Nat, n ≤ size → ∀ i j : Nat, i < size → j < size →
      ((List.range n).foldl (fun m k => m.set k k 1) (Matrix.mkDefault size size)).el i j =
        if i = j ∧ i < n then 1 else 0 := by
  intro n
  induction n with
  | zero =>
    intro _ i j hi hj
    simp [mkDefault_el]
  | succ n ih =>
    intro hn i j hi hj
    rw [List.range_succ, List.foldl_append, List.foldl_cons, List.foldl_nil]
    have hlen : ((List.range n).foldl (fun m k => m.set k k 1)
        (Matrix.mkDefault size size)).data.length = size * size := by
      rw [data_length_foldl _ (fun m a => set_data_length m a a 1) _ _]
      exact mkDefault_WF size size
    by_cases hcase : i = n ∧ j = n
    · rcases hcase with ⟨h1, h2⟩
      subst h1
      subst h2
      rw [el_set_self _ _ _ _ (by rw [hlen]; exact linIdx_lt hi hi)]
      rw [if_pos ⟨rfl, by omega⟩]
    · rw [el_set_of_ne _ _
        (linIdx_ne (by omega) hi (fun hh => hcase ⟨hh.1.symm, hh.2.symm⟩))]
      rw [ih (by omega) i j hi hj]
      have hiff : (i = j ∧ i < n) ↔ (i = j ∧ i < n + 1) := by
        constructor <;> rintro ⟨h1, h2⟩ <;> refine ⟨h1, ?_⟩ <;> subst h1 <;> omega
      exact if_congr hiff rfl rfl

/-- `identity<Size>()` has 1 on the main diagonal and 0 elsewhere. -/
theorem identity_el (size i j : Nat) (hi : i < size) (hj : j < size) :
    (Matrix.identity size).el i j = if i = j then 1 else 0 := by
  show ((List.range size).foldl (fun m k => m.set k k 1) (Matrix.mkDefault size size)).el i j = _
  rw [identity_el_aux size size le_rfl i j hi hj]
  have hiff : (i = j ∧ i < size) ↔ (i = j) := ⟨fun h => h.1, fun h => ⟨h, hi⟩⟩
  exact if_congr hiff rfl rfl

/-- Element characterization of the inner `transpose` loop (fixed destination
row-coordinate `i`, columns `[0, n)` written). -/
theorem transpose_inner_el {cols rows : Nat} (A : Matrix cols rows) (i : Nat) (hi : i < rows) :
    ∀ n : Nat, n ≤ cols → ∀ t : Matrix rows cols, t.data.length = rows * cols →
      ∀ i' j' : Nat, i' < rows → j' < cols →
        ((List.range n).foldl (fun t j => t.set i j (A.el j i)) t).el i' j' =
          if i' = i ∧ j' < n then A.el j' i else t.el i' j' := by
  intro n
  induction n with
  | zero =>
    intro _ t ht i' j' hi' hj'
    simp
  | succ n ih =>
    intro hn t ht i' j' hi' hj'
    rw [List.range_succ, List.foldl_append, List.foldl_cons, List.foldl_nil]
    have hlen : ((List.range n).foldl (fun t j => t.set i j (A.el j i)) t).data.length
        = rows * cols := by
      rw [data_length_foldl _ (fun m a => set_data_length m i a _) _ _, ht]
    by_cases hcase : i' = i ∧ j' = n
    · rcases hcase with ⟨h1, h2⟩
      subst h1
      subst h2
      rw [el_set_self _ _ _ _ (by rw [hlen]; exact linIdx_lt hi' (by omega))]
      rw [if_pos ⟨rfl, by omega⟩]
    · rw [el_set_of_ne _ _
        (linIdx_ne hi hi' (fun hh => hcase ⟨hh.1.symm, hh.2.symm⟩))]
      rw [ih (by omega) t ht i' j' hi' hj']
      have hiff : (i' = i ∧ j' < n) ↔ (i' = i ∧ j' < n + 1) := by
        constructor <;> rintro ⟨h1, h2⟩ <;> refine ⟨h1, ?_⟩ <;>
          simp only [h1, true_and] at hcase <;> omega
      exact if_congr hiff rfl rfl

/-- Element characterization of the outer `transpose` loop after `n` of the
`Rows` iterations. -/
theorem transpose_el_aux {cols rows : Nat} (A : Matrix cols rows) :
    ∀ n : Nat, n ≤ rows → ∀ i' j' : Nat, i' < rows → j' < cols →
      ((List.range n).foldl
        (fun t i => (List.range cols).foldl (fun t j => t.set i j (A.el j i)) t)
        (Matrix.mkDefault rows cols)).el i' j' =
          if i' < n then A.el j' i' else 0 := by
  intro n
  induction n with
  | zero =>
    intro _ i' j' hi' hj'
    simp [mkDefault_el]
  | succ n ih =>
    intro hn i' j' hi' hj'
    rw [List.range_succ, List.foldl_append, List.foldl_cons, List.foldl_nil]
    have hlen : ((List.range n).foldl
        (fun t i => (List.range cols).foldl (fun t j => t.set i j (A.el j i)) t)
        (Matrix.mkDefault rows cols)).data.length = rows * cols := by
      rw [data_length_foldl _
        (fun m a => data_length_foldl _ (fun m' b => set_data_length m' a b _) _ m) _ _]
      exact mkDefault_WF rows cols
    rw [transpose_inner_el A n (by omega) cols le_rfl _ hlen i' j' hi' hj']
    by_cases hcase : i' = n
    · subst hcase
      rw [if_pos ⟨rfl, hj'⟩, if_pos (by omega)]
    · rw [if_neg (fun hh => hcase hh.1), ih (by omega) i' j' hi' hj']
      exact if_congr (by omega) rfl rfl

/-- `transpose` swaps coordinates: `transpose(A)(i, j) = A(j, i)`. -/
theorem transpose_el {cols rows : Nat} (A : Matrix cols rows) (i j : Nat)
    (hi : i < rows) (hj : j < cols) : A.transpose.el i j = A.el j i := by
  show ((List.range rows).foldl
    (fun t i => (List.range cols).foldl (fun t j => t.set i j (A.el j i)) t)
    (Matrix.mkDefault rows cols)).el i j = _
  rw [transpose_el_aux A rows le_rfl i j hi hj, if_pos hi]

/-- `transpose` always produces storage of length `Rows * Cols`. -/
theorem transpose_WF {cols rows : Nat} (A : Matrix cols rows) :
    A.transpose.data.length = rows * cols := by
  show ((List.range rows).foldl
    (fun t i => (List.range cols).foldl (fun t j => t.set i j (A.el j i)) t)
    (Matrix.mkDefault rows cols)).data.length = _
  rw [data_length_foldl _
    (fun m a => data_length_foldl _ (fun m' b => set_data_length m' a b _) _ m) _ _]
  exact mkDefault_WF rows cols

/-- Element characterization of the innermost `operator*` loop: `n` accumulation
steps into the fixed cell `(j, i)` of the accumulator matrix `M`. -/
theorem mul_inner_el {cols rows ocols : Nat} (A : Matrix cols rows) (B : Matrix ocols cols)
    (j i : Nat) (hj : j < ocols) (hi : i < rows) :
    ∀ n : Nat, ∀ M : Matrix ocols rows, M.data.length = ocols * rows →
      ∀ j' i' : Nat, j' < ocols → i' < rows →
        ((List.range n).foldl
          (fun nm k => nm.set j i (nm.el j i + A.el k i * B.el j k)) M).el j' i' =
          if j' = j ∧ i' = i
          then M.el j i + (Finset.range n).sum (fun k => A.el k i * B.el j k)
          else M.el j' i' := by
  intro n
  induction n with
  | zero =>
    intro M hM j' i' hj' hi'
    by_cases h : j' = j ∧ i' = i
    · rcases h with ⟨h1, h2⟩
      subst h1
      subst h2
      simp
    · simp [h]
  | succ n ih =>
    intro M hM j' i' hj' hi'
    rw [List.range_succ, List.foldl_append, List.foldl_cons, List.foldl_nil]
    have hlen : ((List.range n).foldl
        (fun nm k => nm.set j i (nm.el j i + A.el k i * B.el j k)) M).data.length
        = ocols * rows := by
      rw [data_length_foldl _ (fun m a => set_data_length m j i _) _ _, hM]
    have hFji : ((List.range n).foldl
        (fun nm k => nm.set j i (nm.el j i + A.el k i * B.el j k)) M).el j i
        = M.el j i + (Finset.range n).sum (fun k => A.el k i * B.el j k) := by
      rw [ih M hM j i hj hi, if_pos ⟨rfl, rfl⟩]
    by_cases h : j' = j ∧ i' = i
    · rcases h with ⟨h1, h2⟩
      subst h1
      subst h2
      rw [el_set_self _ _ _ _ (by rw [hlen]; exact linIdx_lt hj hi)]
      rw [hFji, Finset.sum_range_succ, add_assoc, if_pos ⟨rfl, rfl⟩]
    · rw [el_set_of_ne _ _
        (linIdx_ne hj hj' (fun hh => h ⟨hh.1.symm, hh.2.symm⟩))]
      rw [ih M hM j' i' hj' hi']
      simp only [if_neg h]

/-- Element characterization of the middle `operator*` loop (fixed result row
`i`, result columns `[0, n)` fully accumulated). -/
theorem mul_middle_el {cols rows ocols : Nat} (A : Matrix cols rows) (B : Matrix ocols cols)
    (i : Nat) (hi : i < rows) :
    ∀ n : Nat, n ≤ ocols → ∀ M : Matrix ocols rows, M.data.length = ocols * rows →
      ∀ j' i' : Nat, j' < ocols → i' < rows →
        ((List.range n).foldl (fun nm j => (List.range cols).foldl
          (fun nm k => nm.set j i (nm.el j i + A.el k i * B.el j k)) nm) M).el j' i' =
          if i' = i ∧ j' < n
          then M.el j' i + (Finset.range cols).sum (fun k => A.el k i * B.el j' k)
          else M.el j' i' := by
  intro n
  induction n with
  | zero =>
    intro _ M hM j' i' hj' hi'
    simp
  | succ n ih =>
    intro hn M hM j' i' hj' hi'
    rw [List.range_succ, List.foldl_append, List.foldl_cons, List.foldl_nil]
    have hlen : ((List.range n).foldl (fun nm j => (List.range cols).foldl
        (fun nm k => nm.set j i (nm.el j i + A.el k i * B.el j k)) nm) M).data.length
        = ocols * rows := by
      rw [data_length_foldl _
        (fun m a => data_length_foldl _ (fun m' b => set_data_length m' a i _) _ m) _ _, hM]
    rw [mul_inner_el A B n i (by omega) hi cols _ hlen j' i' hj' hi']
    by_cases hcase : j' = n ∧ i' = i
    · rcases hcase with ⟨h1, h2⟩
      rw [h1, h2, if_pos ⟨rfl, rfl⟩, ih (by omega) M hM n i (by omega) hi]
      rw [if_neg (fun hh => absurd hh.2 (lt_irrefl n)), if_pos ⟨rfl, by omega⟩]
    · rw [if_neg hcase, ih (by omega) M hM j' i' hj' hi']
      have hiff : (i' = i ∧ j' < n) ↔ (i' = i ∧ j' < n + 1) := by
        constructor <;> rintro ⟨h1, h2⟩ <;> refine ⟨h1, ?_⟩ <;>
          simp only [h1, and_true] at hcase <;> omega
      exact if_congr hiff rfl rfl

/-- Element characterization of the outer `operator*` loop after `n` of the
`Rows` iterations, starting from the default-constructed (all-zero) result. -/
theorem mul_outer_el {cols rows ocols : Nat} (A : Matrix cols rows) (B : Matrix ocols cols) :
    ∀ n : Nat, n ≤ rows → ∀ j' i' : Nat, j' < ocols → i' < rows →
      ((List.range n).foldl (fun nm i => (List.range ocols).foldl
        (fun nm j => (List.range cols).foldl
          (fun nm k => nm.set j i (nm.el j i + A.el k i * B.el j k)) nm) nm)
        (Matrix.mkDefault ocols rows)).el j' i' =
        if i' < n then (Finset.range cols).sum (fun k => A.el k i' * B.el j' k) else 0 := by
  intro n
  induction n with
  | zero =>
    intro _ j' i' hj' hi'
    simp [mkDefault_el]
  | succ n ih =>
    intro hn j' i' hj' hi'
    rw [List.range_succ, List.foldl_append, List.foldl_cons, List.foldl_nil]
    have hlen : ((List.range n).foldl (fun nm i => (List.range ocols).foldl
        (fun nm j => (List.range cols).foldl
          (fun nm k => nm.set j i (nm.el j i + A.el k i * B.el j k)) nm) nm)
        (Matrix.mkDefault ocols rows)).data.length = ocols * rows := by
      rw [data_length_foldl _ (fun m a => data_length_foldl _
        (fun m' b => data_length_foldl _ (fun m'' c => set_data_length m'' b a _) _ m') _ m) _ _]
      exact mkDefault_WF ocols rows
    rw [mul_middle_el A B n (by omega) ocols le_rfl _ hlen j' i' hj' hi']
    by_cases hcase : i' = n
    · subst hcase
      rw [if_pos ⟨rfl, hj'⟩, ih (by omega) j' i' hj' hi', if_neg (by omega), zero_add,
        if_pos (by omega)]
    · rw [if_neg (fun hh => hcase hh.1), ih (by omega) j' i' hj' hi']
      exact if_congr (by omega) rfl rfl

/-- `operator*` computes `result(j, i) = Σ over k in [0, Cols) of
lhs(k, i) * rhs(j, k)`. -/
theorem mul_el {cols rows ocols : Nat} (A : Matrix cols rows) (B : Matrix ocols cols)
    (j i : Nat) (hj : j < ocols) (hi : i < rows) :
    (A.mul B).el j i = (Finset.range cols).sum (fun k => A.el k i * B.el j k) := by
  show ((List.range rows).foldl (fun nm i => (List.range ocols).foldl
    (fun nm j => (List.range cols).foldl
      (fun nm k => nm.set j i (nm.el j i + A.el k i * B.el j k)) nm) nm)
    (Matrix.mkDefault ocols rows)).el j i = _
  rw [mul_outer_el A B rows le_rfl j i hj hi, if_pos hi]

/-- `operator*` always produces storage of length `OtherCols * Rows`. -/
theorem mul_WF {cols rows ocols : Nat} (A : Matrix cols rows) (B : Matrix ocols cols) :
    (A.mul B).data.length = ocols * rows := by
  show ((List.range rows).foldl (fun nm i => (List.range ocols).foldl
    (fun nm j => (List.range cols).foldl
      (fun nm k => nm.set j i (nm.el j i + A.el k i * B.el j k)) nm) nm)
    (Matrix.mkDefault ocols rows)).data.length = _
  rw [data_length_foldl _ (fun m a => data_length_foldl _
    (fun m' b => data_length_foldl _ (fun m'' c => set_data_length m'' b a _) _ m') _ m) _ _]
  exact mkDefault_WF ocols rows

theorem copyRow_length (src d : List Int) (srcOff dstOff len : Nat) :
    (copyRow src d srcOff dstOff len).length = d.length :=
  length_foldl_set (fun j => dstOff + j) (fun j => src.getD (srcOff + j) 0) (List.range len) d

/-- Element characterization of the inner `slice` copy loop: destination slots
`[dstOff, dstOff + len)` receive `src[srcOff + offset]`, everything else keeps
its old value. -/
theorem copyRow_getD (src : List Int) (srcOff dstOff : Nat) :
    ∀ (len : Nat) (d : List Int) (n : Nat),
      (copyRow src d srcOff dstOff len).getD n 0 =
        if dstOff ≤ n ∧ n < dstOff + len ∧ n < d.length
        then src.getD (srcOff + (n - dstOff)) 0
        else d.getD n 0 := by
  intro len
  induction len with
  | zero =>
    intro d n
    have h0 : copyRow src d srcOff dstOff 0 = d := rfl
    rw [h0, if_neg (by omega)]
  | succ len ih =>
    intro d n
    have hstep : copyRow src d srcOff dstOff (len + 1) =
        (copyRow src d srcOff dstOff len).set (dstOff + len) (src.getD (srcOff + len) 0) := by
      show (List.range (len + 1)).foldl
        (fun d j => d.set (dstOff + j) (src.getD (srcOff + j) 0)) d = _
      rw [List.range_succ, List.foldl_append, List.foldl_cons, List.foldl_nil]
      rfl
    rw [hstep]
    have hlen := copyRow_length src d srcOff dstOff len
    by_cases hn : n = dstOff + len
    · by_cases hbound : n < d.length
      · rw [hn, getD_set_self _ _ _ (by omega)]
        rw [if_pos ⟨by omega, by omega, by omega⟩]
        congr 1
        omega
      · rw [List.set_eq_of_length_le (by omega), ih d n]
        rw [if_neg (by omega), if_neg (by omega)]
    · rw [getD_set_of_ne _ _ (fun hh => hn hh.symm), ih d n]
      exact if_congr (by omega) rfl rfl

theorem length_foldl_copyRow (src : List Int) (f g : Nat → Nat) (len : Nat) (l : List Nat) :
    ∀ d : List Int, (l.foldl (fun d i => copyRow src d (f i) (g i) len) d).length = d.length := by
  induction l with
  | nil => intro d; rfl
  | cons a l ih => intro d; rw [List.foldl_cons, ih, copyRow_length]

/-- If the row-major index `c + r * newCols` (with `c < newCols`) lands in the
window `[nr * newCols, nr * newCols + lesserCols)`, `lesserCols ≤ newCols`,
then `r = nr` and `c < lesserCols`. -/
theorem idx_window {newCols lesserCols c r nr : Nat} (hc : c < newCols)
    (hlc : lesserCols ≤ newCols) (h1 : nr * newCols ≤ c + r * newCols)
    (h2 : c + r * newCols < nr * newCols + lesserCols) :
    r = nr ∧ c < lesserCols := by
  have hr : r = nr := by
    rcases Nat.lt_trichotomy r nr with h | h | h
    · have hm : (r + 1) * newCols ≤ nr * newCols := Nat.mul_le_mul_right _ h
      have hs : (r + 1) * newCols = r * newCols + newCols := by ring
      omega
    · exact h
    · have hm : (nr + 1) * newCols ≤ r * newCols := Nat.mul_le_mul_right _ h
      have hs : (nr + 1) * newCols = nr * newCols + newCols := by ring
      omega
  subst hr
  exact ⟨rfl, by omega⟩

/-- Element characterization of the outer `slice` copy loop (the
`Cols != NewCols` case) after `nr` row iterations. -/
theorem sliceLoop_getD {cols rows : Nat} (m : Matrix cols rows) (newCols lesserCols : Nat)
    (hlc : lesserCols ≤ newCols) :
    ∀ (nr : Nat) (d : List Int) (c r : Nat), c < newCols →
      ((List.range nr).foldl
        (fun d i => copyRow m.data d (i * cols) (i * newCols) lesserCols) d).getD
          (c + r * newCols) 0 =
        if r < nr ∧ c < lesserCols ∧ c + r * newCols < d.length
        then m.data.getD (c + r * cols) 0
        else d.getD (c + r * newCols) 0 := by
  intro nr
  induction nr with
  | zero =>
    intro d c r hc
    rw [List.range_zero, List.foldl_nil, if_neg (by omega)]
  | succ nr ih =>
    intro d c r hc
    rw [List.range_succ, List.foldl_append, List.foldl_cons, List.foldl_nil]
    have hFlen : ((List.range nr).foldl
        (fun d i => copyRow m.data d (i * cols) (i * newCols) lesserCols) d).length
        = d.length :=
      length_foldl_copyRow m.data (fun i => i * cols) (fun i => i * newCols) lesserCols _ d
    rw [copyRow_getD m.data (nr * cols) (nr * newCols) lesserCols _ (c + r * newCols)]
    by_cases hwin : nr * newCols ≤ c + r * newCols ∧
        c + r * newCols < nr * newCols + lesserCols ∧ c + r * newCols <
          ((List.range nr).foldl
            (fun d i => copyRow m.data d (i * cols) (i * newCols) lesserCols) d).length
    · obtain ⟨hrn, hcl⟩ := idx_window hc hlc hwin.1 hwin.2.1
      rw [if_pos hwin, if_pos ⟨by omega, hcl, by omega⟩]
      have hsub : c + r * newCols - nr * newCols = c := by
        rw [hrn]
        omega
      rw [hsub, hrn]
      congr 1
      omega
    · rw [if_neg hwin, ih d c r hc]
      have hiff : (r < nr ∧ c < lesserCols ∧ c + r * newCols < d.length) ↔
          (r < nr + 1 ∧ c < lesserCols ∧ c + r * newCols < d.length) := by
        constructor <;> rintro ⟨h1, h2, h3⟩ <;> refine ⟨?_, h2, h3⟩
        · omega
        · rcases Nat.lt_succ_iff_lt_or_eq.mp h1 with h | h
          · exact h
          · subst h
            exact absurd ⟨Nat.le_add_left _ _, by omega, by omega⟩ hwin
      exact if_congr hiff rfl rfl

/-- `slice` branch equation for `Cols != NewCols`. -/
theorem slice_eq_of_ne {cols rows : Nat} (m : Matrix cols rows) (newCols newRows : Nat)
    (h : cols ≠ newCols) :
    m.slice newCols newRows = ⟨(List.range (min rows newRows)).foldl
      (fun d i => copyRow m.data d (i * cols) (i * newCols) (min cols newCols))
      (Matrix.mkDefault newCols newRows).data⟩ := by
  show (if cols ≠ newCols then _ else _) = _
  rw [if_pos h]

/-- `slice` branch equation for `Cols == NewCols` (the `vector::insert` case). -/
theorem slice_eq_of_eq {cols rows : Nat} (m : Matrix cols rows) (newCols newRows : Nat)
    (h : cols = newCols) :
    m.slice newCols newRows =
      ⟨m.data.take (min rows newRows * cols) ++ (Matrix.mkDefault newCols newRows).data⟩ := by
  show (if cols ≠ newCols then _ else _) = _
  rw [if_neg (fun hh => hh h)]

/-- Element characterization of `slice`: the overlap region is copied, the
rest of the new matrix reads zero (in both branches of the code, even though
the `Cols == NewCols` branch leaves oversized storage behind). -/
theorem slice_el {cols rows : Nat} (m : Matrix cols rows) (newCols newRows : Nat)
    (hm : m.WF) (c r : Nat) (hc : c < newCols) (hr : r < newRows) :
    (m.slice newCols newRows).el c r =
      if c < min cols newCols ∧ r < min rows newRows then m.el c r else 0 := by
  rcases eq_or_ne cols newCols with heq | hne
  · subst heq
    rw [slice_eq_of_eq m cols newRows rfl]
    show (m.data.take (min rows newRows * cols) ++
      (List.replicate (cols * newRows) 0)).getD (c + r * cols) 0 = _
    have htl : (m.data.take (min rows newRows * cols)).length =
        min (min rows newRows * cols) (cols * rows) := by
      rw [List.length_take, hm]
    by_cases hrlt : r < min rows newRows
    · have hidx : c + r * cols < min rows newRows * cols := by
        have h1 : c + r * cols < cols * (r + 1) := by
          have hx : cols * (r + 1) = r * cols + cols := by ring
          omega
        have h2 : cols * (r + 1) ≤ cols * min rows newRows := Nat.mul_le_mul_left _ (by omega)
        have h3 : cols * min rows newRows = min rows newRows * cols := Nat.mul_comm _ _
        omega
      have hbound : c + r * cols < (m.data.take (min rows newRows * cols)).length := by
        have h2 : min rows newRows * cols ≤ rows * cols :=
          Nat.mul_le_mul_right _ (Nat.min_le_left _ _)
        have h3 : rows * cols = cols * rows := Nat.mul_comm _ _
        omega
      rw [getD_append_lt _ _ _ hbound, getD_take _ _ _ hidx,
        if_pos ⟨by omega, hrlt⟩]
      rfl
    · have hge : (m.data.take (min rows newRows * cols)).length ≤ c + r * cols := by
        have h1 : min rows newRows * cols ≤ r * cols := Nat.mul_le_mul_right _ (by omega)
        omega
      rw [getD_append_ge _ _ _ hge, getD_replicate_zero, if_neg (fun hh => hrlt hh.2)]
  · rw [slice_eq_of_ne m newCols newRows hne]
    show ((List.range (min rows newRows)).foldl
      (fun d i => copyRow m.data d (i * cols) (i * newCols) (min cols newCols))
      (List.replicate (newCols * newRows) 0)).getD (c + r * newCols) 0 = _
    rw [sliceLoop_getD m newCols (min cols newCols) (Nat.min_le_right _ _)
      (min rows newRows) _ c r hc]
    have hin : c + r * newCols < (List.replicate (newCols * newRows) (0 : Int)).length := by
      rw [List.length_replicate]
      exact linIdx_lt hc hr
    by_cases hcond : c < min cols newCols ∧ r < min rows newRows
    · rw [if_pos ⟨hcond.2, hcond.1, hin⟩, if_pos hcond]
      rfl
    · rw [if_neg (fun hh => hcond ⟨hh.2.1, hh.1⟩), if_neg hcond, getD_replicate_zero]

/-! Claim theorems. -/

/-- C2: slice<NewCols,NewRows>(A) reads back A(c, r) at every position inside
the overlap (c < min(Cols,NewCols), r < min(Rows,NewRows)) and zero at every
other position of the new shape; consequently slicing to identical dimensions
is an element-wise-identical copy. -/
theorem slice_correct :
    (∀ (cols rows : Nat) (A : Matrix cols rows) (newCols newRows : Nat), A.WF →
      ∀ c r : Nat, c < newCols → r < newRows →
        (A.slice newCols newRows).el c r =
          if c < min cols newCols ∧ r < min rows newRows then A.el c r else 0) ∧
    (∀ (cols rows : Nat) (A : Matrix cols rows), A.WF →
      ∀ c r : Nat, c < cols → r < rows → (A.slice cols rows).el c r = A.el c r) := by
  refine ⟨fun cols rows A newCols newRows hA c r hc hr =>
    slice_el A newCols newRows hA c r hc hr, ?_⟩
  intro cols rows A hA c r hc hr
  rw [slice_el A cols rows hA c r hc hr,
    if_pos ⟨by rw [Nat.min_self]; exact hc, by rw [Nat.min_self]; exact hr⟩]

/-- Witness for C2: evaluates slice at concrete matrices (an enlarging slice
with a changed column count, and an identical-dimensions round trip) through
the general theorem. -/
theorem slice_correct_witness :
    ((Matrix.ofList 2 2 [1, 2, 3, 4]).slice 3 3).el 1 1 =
      (if 1 < min 2 3 ∧ 1 < min 2 3 then (Matrix.ofList 2 2 [1, 2, 3, 4]).el 1 1 else 0) ∧
    ((Matrix.ofList 2 2 [1, 2, 3, 4]).slice 3 3).el 2 1 =
      (if 2 < min 2 3 ∧ 1 < min 2 3 then (Matrix.ofList 2 2 [1, 2, 3, 4]).el 2 1 else 0) ∧
    ((Matrix.ofList 2 2 [1, 2, 3, 4]).slice 2 2).el 0 1 = (Matrix.ofList 2 2 [1, 2, 3, 4]).el 0 1 :=
  ⟨slice_correct.1 2 2 (Matrix.ofList 2 2 [1, 2, 3, 4]) 3 3 (by decide) 1 1
      (by decide) (by decide),
    slice_correct.1 2 2 (Matrix.ofList 2 2 [1, 2, 3, 4]) 3 3 (by decide) 2 1
      (by decide) (by decide),
    slice_correct.2 2 2 (Matrix.ofList 2 2 [1, 2, 3, 4]) (by decide) 0 1
      (by decide) (by decide)⟩

/-- C3: the matrix product of a Cols×Rows matrix and an OtherCols×Cols matrix
is an OtherCols×Rows matrix (storage length OtherCols*Rows) whose element at
(j, i) is the sum over k in [0, Cols) of lhs(k, i) * rhs(j, k), accumulated
from the zero-initialized result. -/
theorem mul_correct :
    ∀ (cols rows ocols : Nat) (A : Matrix cols rows) (B : Matrix ocols cols),
      A.WF → B.WF →
      (A.mul B).data.length = ocols * rows ∧
      (∀ j i : Nat, j < ocols → i < rows →
        (A.mul B).el j i = (Finset.range cols).sum (fun k => A.el k i * B.el j k)) :=
  fun _cols _rows _ocols A B _ _ =>
    ⟨mul_WF A B, fun j i hj hi => mul_el A B j i hj hi⟩

/-- Witness for C3: evaluates the product of two concrete 2×2 matrices through
the general theorem. -/
theorem mul_correct_witness :
    ((Matrix.ofList 2 2 [1, 2, 3, 4]).mul (Matrix.ofList 2 2 [5, 6, 7, 8])).el 0 1 =
      (Finset.range 2).sum (fun k =>
        (Matrix.ofList 2 2 [1, 2, 3, 4]).el k 1 * (Matrix.ofList 2 2 [5, 6, 7, 8]).el 0 k) :=
  (mul_correct 2 2 2 (Matrix.ofList 2 2 [1, 2, 3, 4]) (Matrix.ofList 2 2 [5, 6, 7, 8])
    (by decide) (by decide)).2 0 1 (by decide) (by decide)

/-- C4: identity<N>() has 1 at every diagonal position and 0 elsewhere, and
with exact integer arithmetic A * identity<N>() and identity<N>() * A are both
element-wise equal to A for every square N×N matrix A. -/
theorem identity_law :
    (∀ size i j : Nat, i < size → j < size →
      (Matrix.identity size).el i j = if i = j then 1 else 0) ∧
    (∀ (n : Nat) (A : Matrix n n), A.WF → ∀ j i : Nat, j < n → i < n →
      (A.mul (Matrix.identity n)).el j i = A.el j i ∧
      ((Matrix.identity n).mul A).el j i = A.el j i) := by
  refine ⟨fun size i j hi hj => identity_el size i j hi hj, ?_⟩
  intro n A hA j i hj hi
  constructor
  · rw [mul_el A (Matrix.identity n) j i hj hi]
    have hterm : ∀ k ∈ Finset.range n,
        A.el k i * (Matrix.identity n).el j k = if j = k then A.el k i else 0 := by
      intro k hk
      rw [identity_el n j k hj (Finset.mem_range.mp hk)]
      by_cases h : j = k <;> simp [h]
    rw [Finset.sum_congr rfl hterm,
      Finset.sum_ite_eq (Finset.range n) j (fun k => A.el k i),
      if_pos (Finset.mem_range.mpr hj)]
  · rw [mul_el (Matrix.identity n) A j i hj hi]
    have hterm : ∀ k ∈ Finset.range n,
        (Matrix.identity n).el k i * A.el j k = if k = i then A.el j k else 0 := by
      intro k hk
      rw [identity_el n k i (Finset.mem_range.mp hk) hi]
      by_cases h : k = i <;> simp [h]
    rw [Finset.sum_congr rfl hterm,
      Finset.sum_ite_eq' (Finset.range n) i (fun k => A.el j k),
      if_pos (Finset.mem_range.mpr hi)]

/-- Witness for C4: evaluates the identity laws at a concrete 2×2 matrix
through the general theorem. -/
theorem identity_law_witness :
    ((Matrix.ofList 2 2 [1, 2, 3, 4]).mul (Matrix.identity 2)).el 1 0 =
      (Matrix.ofList 2 2 [1, 2, 3, 4]).el 1 0 ∧
    ((Matrix.identity 2).mul (Matrix.ofList 2 2 [1, 2, 3, 4])).el 1 0 =
      (Matrix.ofList 2 2 [1, 2, 3, 4]).el 1 0 :=
  identity_law.2 2 (Matrix.ofList 2 2 [1, 2, 3, 4]) (by decide) 1 0 (by decide) (by decide)

/-- C5: transpose(A)(i, j) = A(j, i) for all valid i, j (and its storage
length is Rows*Cols); transpose is pure (the embedding returns a fresh value
and leaves A untouched), and transpose(transpose(A)), of dimension Cols×Rows
again, is element-wise equal to A. -/
theorem transpose_correct :
    (∀ (cols rows : Nat) (A : Matrix cols rows) (i j : Nat), i < rows → j < cols →
      A.transpose.el i j = A.el j i) ∧
    (∀ (cols rows : Nat) (A : Matrix cols rows), A.transpose.data.length = rows * cols) ∧
    (∀ (cols rows : Nat) (A : Matrix cols rows) (c r : Nat), c < cols → r < rows →
      A.transpose.transpose.el c r = A.el c r) := by
  refine ⟨fun cols rows A i j hi hj => transpose_el A i j hi hj,
    fun cols rows A => transpose_WF A,
    fun cols rows A c r hc hr => ?_⟩
  rw [transpose_el A.transpose c r hc hr, transpose_el A r c hr hc]

/-- Witness for C5: evaluates the transpose characterization and involution at
a concrete 2×3 matrix through the general theorem. -/
theorem transpose_correct_witness :
    (Matrix.ofList 2 3 [1, 2, 3, 4, 5, 6]).transpose.el 2 1 =
      (Matrix.ofList 2 3 [1, 2, 3, 4, 5, 6]).el 1 2 ∧
    (Matrix.ofList 2 3 [1, 2, 3, 4, 5, 6]).transpose.transpose.el 1 2 =
      (Matrix.ofList 2 3 [1, 2, 3, 4, 5, 6]).el 1 2 :=
  ⟨transpose_correct.1 2 3 (Matrix.ofList 2 3 [1, 2, 3, 4, 5, 6]) 2 1 (by decide) (by decide),
    transpose_correct.2.2 2 3 (Matrix.ofList 2 3 [1, 2, 3, 4, 5, 6]) 1 2 (by decide) (by decide)⟩

/-- C6: literal construction assigns the given values in row-major linear order
(position (col, row) reads linear index col + row*Cols) and zero-fills any
trailing positions; in particular the 2×2 integer matrix built from [1,2,3,4]
has element(0,0)=1, element(1,0)=2, element(0,1)=3, element(1,1)=4. -/
theorem ofList_rowMajor_fill :
    (∀ (cols rows : Nat) (l : List Int) (c r : Nat), c < cols → r < rows →
      l.length ≤ cols * rows →
      (Matrix.ofList cols rows l).el c r = l.getD (c + r * cols) 0) ∧
    (∀ (cols rows : Nat) (l : List Int) (c r : Nat), c < cols → r < rows →
      l.length ≤ c + r * cols → l.length ≤ cols * rows →
      (Matrix.ofList cols rows l).el c r = 0) ∧
    ((Matrix.ofList 2 2 [1, 2, 3, 4]).el 0 0 = 1 ∧
      (Matrix.ofList 2 2 [1, 2, 3, 4]).el 1 0 = 2 ∧
      (Matrix.ofList 2 2 [1, 2, 3, 4]).el 0 1 = 3 ∧
      (Matrix.ofList 2 2 [1, 2, 3, 4]).el 1 1 = 4) := by
  refine ⟨fun cols rows l c r hc hr hl => ofList_el cols rows l c r hc hr hl, ?_, ?_⟩
  · intro cols rows l c r hc hr hidx hl
    rw [ofList_el cols rows l c r hc hr hl, List.getD_eq_default _ _ hidx]
  · exact ⟨by decide, by decide, by decide, by decide⟩

/-- Witness for C6: evaluates the literal constructor at a concrete input
through the general theorem. -/
theorem ofList_rowMajor_fill_witness :
    (Matrix.ofList 2 2 [9, 8, 7]).el 1 0 = 8 := by
  rw [ofList_rowMajor_fill.1 2 2 [9, 8, 7] 1 0 (by decide) (by decide) (by decide)]
  decide

/-- C10: constructing from a literal sequence longer than Cols*Rows keeps
exactly the first Cols*Rows values in order; the element at linear index i is
the sequence's i-th value for every i < Cols*Rows. -/
theorem ofList_truncates :
    ∀ (cols rows : Nat) (l : List Int), cols * rows < l.length →
      (Matrix.ofList cols rows l).data = l.take (cols * rows) ∧
      (∀ i : Nat, i < cols * rows →
        (Matrix.ofList cols rows l).data.getD i 0 = l.getD i 0) := by
  intro cols rows l hl
  have hdata : (Matrix.ofList cols rows l).data = l.take (cols * rows) := by
    show vecResize l (cols * rows) = _
    rw [vecResize, Nat.sub_eq_zero_of_le (by omega), List.replicate_zero, List.append_nil]
  refine ⟨hdata, fun i hi => ?_⟩
  rw [hdata, getD_take _ _ _ hi]

/-- Witness for C10: evaluates truncating construction at a concrete input
through the general theorem. -/
theorem ofList_truncates_witness :
    (Matrix.ofList 1 2 [5, 6, 7]).data = ([5, 6, 7] : List Int).take (1 * 2) :=
  (ofList_truncates 1 2 [5, 6, 7] (by decide)).1

/-- C9: writing through the mutable accessor at in-range (col, row) changes
only the element at linear index col + row*Cols: the written cell reads back
the new value, every other linear index reads the old value, every other
in-range position reads the old value, and the storage length is unchanged. -/
theorem set_frame :
    ∀ (cols rows : Nat) (m : Matrix cols rows) (c r : Nat) (v : Int),
      m.WF → c < cols → r < rows →
      (m.set c r v).el c r = v ∧
      (∀ n : Nat, n ≠ c + r * cols → (m.set c r v).data.getD n 0 = m.data.getD n 0) ∧
      (∀ c' r' : Nat, c' < cols → r' < rows → ¬(c' = c ∧ r' = r) →
        (m.set c r v).el c' r' = m.el c' r') ∧
      (m.set c r v).data.length = m.data.length := by
  intro cols rows m c r v hm hc hr
  have hidx : c + r * cols < m.data.length := by rw [hm]; exact linIdx_lt hc hr
  refine ⟨getD_set_self _ _ _ hidx, ?_, ?_, List.length_set _ _ _⟩
  · intro n hn
    exact getD_set_of_ne _ _ (fun h => hn h.symm)
  · intro c' r' hc' hr' hne
    refine getD_set_of_ne _ _ (fun h => hne ?_)
    have := linIdx_inj hc hc' h
    exact ⟨this.1.symm, this.2.symm⟩

/-- Witness for C9: evaluates the frame property at a concrete matrix. -/
theorem set_frame_witness :
    ((Matrix.ofList 2 2 [1, 2, 3, 4]).set 0 1 7).el 0 1 = 7 ∧
    ((Matrix.ofList 2 2 [1, 2, 3, 4]).set 0 1 7).el 1 0 = (Matrix.ofList 2 2 [1, 2, 3, 4]).el 1 0 := by
  have h := set_frame 2 2 (Matrix.ofList 2 2 [1, 2, 3, 4]) 0 1 7 (by decide) (by decide) (by decide)
  exact ⟨h.1, h.2.2.1 1 0 (by decide) (by decide) (by decide)⟩

/-- C7: scalar multiplication multiplies every element independently by the
scalar; the scalar-first form delegates to the matrix-first form (so they agree
element-wise); the 1×2 vector [2,3] times 4 is [8,12]. -/
theorem scalarMul_correct :
    (∀ (cols rows : Nat) (A : Matrix cols rows) (s : Int), A.WF →
      ∀ c r : Nat, c < cols → r < rows →
        (A.scalarMulRight s).el c r = A.el c r * s) ∧
    (∀ (cols rows : Nat) (A : Matrix cols rows) (s : Int),
      Matrix.scalarMulLeft s A = A.scalarMulRight s) ∧
    (((Matrix.ofList 1 2 [2, 3]).scalarMulRight 4).el 0 0 = 8 ∧
      ((Matrix.ofList 1 2 [2, 3]).scalarMulRight 4).el 0 1 = 12 ∧
      (Matrix.scalarMulLeft 4 (Matrix.ofList 1 2 [2, 3])).el 0 0 = 8 ∧
      (Matrix.scalarMulLeft 4 (Matrix.ofList 1 2 [2, 3])).el 0 1 = 12) := by
  refine ⟨?_, fun cols rows A s => rfl, by decide, by decide, by decide, by decide⟩
  intro cols rows A s hA c r hc hr
  have hidx : c + r * cols < A.data.length := by rw [hA]; exact linIdx_lt hc hr
  show (A.scalarMulRight s).data.getD (c + r * cols) 0 = _
  rw [scalarMulRight_data A s hA, getD_map _ _ _ hidx]
  rfl

/-- Witness for C7: evaluates scalar multiplication at a concrete matrix
through the general theorem. -/
theorem scalarMul_correct_witness :
    ((Matrix.ofList 2 1 [5, 6]).scalarMulRight 3).el 1 0 = (Matrix.ofList 2 1 [5, 6]).el 1 0 * 3 :=
  scalarMul_correct.1 2 1 (Matrix.ofList 2 1 [5, 6]) 3 (by decide) 1 0 (by decide) (by decide)

/-- C8: addition and subtraction are computed pairwise per element; adding a
default-constructed (all-zero) matrix returns A element-wise, and A - A is
element-wise equal to a default-constructed matrix. -/
theorem add_sub_correct :
    (∀ (cols rows : Nat) (A B : Matrix cols rows), A.WF → B.WF →
      ∀ c r : Nat, c < cols → r < rows →
        (A.add B).el c r = A.el c r + B.el c r ∧
        (A.sub B).el c r = A.el c r - B.el c r) ∧
    (∀ (cols rows : Nat) (A : Matrix cols rows), A.WF →
      ∀ c r : Nat, c < cols → r < rows →
        (A.add (Matrix.mkDefault cols rows)).el c r = A.el c r ∧
        (A.sub A).el c r = (Matrix.mkDefault cols rows).el c r) := by
  have hpair : ∀ (cols rows : Nat) (A B : Matrix cols rows), A.WF → B.WF →
      ∀ c r : Nat, c < cols → r < rows →
        (A.add B).el c r = A.el c r + B.el c r ∧
        (A.sub B).el c r = A.el c r - B.el c r := by
    intro cols rows A B hA hB c r hc hr
    have hia : c + r * cols < A.data.length := by rw [hA]; exact linIdx_lt hc hr
    have hib : c + r * cols < B.data.length := by rw [hB]; exact linIdx_lt hc hr
    constructor
    · show (A.add B).data.getD (c + r * cols) 0 = _
      rw [add_data A B hA hB, getD_zipWith _ _ _ _ hia hib]
      rfl
    · show (A.sub B).data.getD (c + r * cols) 0 = _
      rw [sub_data A B hA hB, getD_zipWith _ _ _ _ hia hib]
      rfl
  refine ⟨hpair, fun cols rows A hA c r hc hr => ?_⟩
  have h1 := hpair cols rows A (Matrix.mkDefault cols rows) hA (mkDefault_WF cols rows) c r hc hr
  have h2 := hpair cols rows A A hA hA c r hc hr
  rw [mkDefault_el] at h1 ⊢
  exact ⟨by rw [h1.1, add_zero], by rw [h2.2, sub_self]⟩

/-- Witness for C8: evaluates the additive-identity law at a concrete matrix
through the general theorem. -/
theorem add_sub_correct_witness :
    ((Matrix.ofList 2 2 [1, 2, 3, 4]).add (Matrix.mkDefault 2 2)).el 1 1 =
      (Matrix.ofList 2 2 [1, 2, 3, 4]).el 1 1 :=
  (add_sub_correct.2 2 2 (Matrix.ofList 2 2 [1, 2, 3, 4]) (by decide) 1 1
    (by decide) (by decide)).1

/-- C1 (refuted on the code): slicing the 2×2 matrix [1,2,3,4] to the identical
2×2 shape takes the `Cols == NewCols` branch, whose `vector::insert` at
`begin()` prepends 4 copied elements to the 4 zeros already present, so the
result's storage length is 8, not Cols*Rows = 4. -/
theorem slice_same_dims_length_bug :
    ((Matrix.ofList 2 2 [1, 2, 3, 4]).slice 2 2).data.length = 8 ∧
    ((Matrix.ofList 2 2 [1, 2, 3, 4]).slice 2 2).data.length ≠ 2 * 2 := by
  exact ⟨by decide, by decide⟩

end swm
